import Mathlib

/-!
# Verification of the react-mindflow mind-map core

Shallow embedding of the layout engine, interaction controller, scene
renderer bookkeeping, and size estimator of the repository, together with
theorems settling the frozen claims about them.

Numeric values carried by the code (JS doubles) are modelled as exact
rationals `ℚ`; the transcendental library primitives the code calls
(`Math.log`, `Math.sin`, `Math.cos`, `Math.PI`) are abstracted as function
parameters, since no claim depends on their values.  JS `Set<string>` is
modelled as `Finset String` (only membership is ever observed).

`MindMapNode` (src/types.ts) carries `name : string` and an optional
`children` array.  In every function modelled below an absent `children`
field and an empty array behave identically (all accesses are
`children?.length`-style truthiness tests or `forEach`/`map` loops), so
children are modelled as a plain list, `[]` standing for both.
-/

/-- The input tree (`MindMapNode` of src/types.ts): a name and children. -/
inductive MNode : Type where
  | node (name : String) (children : List MNode)

namespace MNode

def name : MNode → String
  | node nm _ => nm

def children : MNode → List MNode
  | node _ cs => cs

@[simp] theorem name_node (nm : String) (cs : List MNode) : (node nm cs).name = nm := rfl

@[simp] theorem children_node (nm : String) (cs : List MNode) :
    (node nm cs).children = cs := rfl

/-- Structural induction with a membership hypothesis for the children. -/
theorem inductionOn (P : MNode → Prop)
    (h : ∀ nm cs, (∀ c ∈ cs, P c) → P (node nm cs)) : ∀ n, P n
  | node nm cs => h nm cs (fun c _hc => inductionOn P h c)
termination_by n => sizeOf n
decreasing_by
  have h1 := List.sizeOf_lt_of_mem _hc
  simp only [MNode.node.sizeOf_spec]
  omega

end MNode

/-! ## Subtree access and ancestor chains

A node of the d3 hierarchy is identified by its object, i.e. by its position
in the tree; we address positions by index paths from the root.  `findAt`
returns the subtree at a path; `ancestorsAt` returns the `node.parent`
chain of the node at the path (root first; the interaction controller only
folds the chain into a set, so the order is immaterial to every claim). -/

def findAt : MNode → List ℕ → Option MNode
  | n, [] => some n
  | MNode.node _ cs, i :: p =>
    match cs.get? i with
    | some c => findAt c p
    | none => none

def ancestorsAt (t : MNode) : List ℕ → List MNode
  | [] => []
  | i :: p =>
    match t.children.get? i with
    | some c => t :: ancestorsAt c p
    | none => []

/-! ## Interaction Controller: expand/collapse (src/unnamed/part_000)

`handleNodeToggle` (canvas variant, lines 1379–1460): expanding inserts the
node's name, for the root also every immediate child's name, and then every
ancestor's name; collapsing calls the helper `collapseDescendants`, which
deletes the node's name and the names of its *immediate* children only (it
does not recurse).  `toggleNode` (svg variant, lines 63–73) merely flips
membership of the node's own name. -/

def handleNodeToggle (n : MNode) (ancestors : List MNode) (depth : ℕ)
    (s : Finset String) : Finset String :=
  if n.children.isEmpty then s
  else if n.name ∉ s then
    -- expanding
    let s1 := insert n.name s
    let s2 := if depth = 0 then n.children.foldl (fun acc c => insert c.name acc) s1 else s1
    ancestors.foldl (fun acc a => insert a.name acc) s2
  else
    -- collapsing: `collapseDescendants` deletes the node and its immediate children
    (n.children.foldl (fun acc c => acc.erase c.name) (s.erase n.name))

def toggleNode (n : MNode) (s : Finset String) : Finset String :=
  if n.name ∈ s then s.erase n.name else insert n.name s

/-- Initial seeding of the expanded set (`initializeView`, canvas variant,
lines 1660–1669): the root's name and the names of its immediate children. -/
def initialExpanded (t : MNode) : Finset String :=
  t.children.foldl (fun acc c => insert c.name acc) {t.name}

/-- States of the expanded set reachable from initialization by toggle
clicks on nodes of the tree (`handleNodeToggle` applied to a node of the
d3 hierarchy, with its parent chain and depth). -/
inductive Reachable (t : MNode) : Finset String → Prop where
  | init : Reachable t (initialExpanded t)
  | toggle (s : Finset String) (p : List ℕ) (n : MNode) (h : findAt t p = some n) :
      Reachable t s → Reachable t (handleNodeToggle n (ancestorsAt t p) p.length s)

/-! ## Scene graph filtering (render, canvas variant, lines 1209–1228)

`processDataWithExpanded` keeps a node's children iff the node's name is in
the expanded set, recursively; otherwise the children are dropped.  The svg
variant (lines 401–408) removes `children` from every copied hierarchy node
whose name is not in the set, which yields the same tree reachable from the
root. -/

mutual
def filterExpanded (s : Finset String) : MNode → MNode
  | MNode.node nm cs => MNode.node nm (if nm ∈ s then filterChildren s cs else [])

def filterChildren (s : Finset String) : List MNode → List MNode
  | [] => []
  | c :: cs => filterExpanded s c :: filterChildren s cs
end

mutual
/-- All nodes of a tree, in preorder (d3 `descendants()`, including self). -/
def descendants : MNode → List MNode
  | MNode.node nm cs => MNode.node nm cs :: descendantsList cs

def descendantsList : List MNode → List MNode
  | [] => []
  | c :: cs => descendants c ++ descendantsList cs
end

/-- Names of all nodes of a tree. -/
def namesOf (t : MNode) : List String := (descendants t).map MNode.name

/-- Whether, in the rendered (filtered) tree for expanded set `s`, a node
named `nm` appears with a non-empty visible-children list. -/
def childrenAppear (t : MNode) (s : Finset String) (nm : String) : Bool :=
  (descendants (filterExpanded s t)).any (fun m => m.name = nm && !(m.children.isEmpty))

/-! ## Size Estimator

Svg variant `calculateNodeSize` (part_000 lines 76–81): a pure heuristic
from the label length (JS `string.length`; names here are ASCII so Lean's
`String.length` coincides). -/

def nodeSizeSvg (fontSize nodePadding : ℚ) (n : MNode) : ℚ × ℚ :=
  let textLength : ℚ := (n.name.length : ℚ) * fontSize * (7/10)
  (max (textLength + nodePadding * 2) 60, max (fontSize + nodePadding) 28)

/-- Canvas variant `calculateNodeSize` (part_000 lines 1006–1029).  The
drawing context is modelled by an optional text-measuring function
(`ctx.measureText(...).width`); `none` is an unavailable context. -/
def calculateNodeSizeCanvas (measure : Option (String → ℚ))
    (fontSize minWidth minHeight nodePadding : ℚ) (nm : String) (depth : ℕ) : ℚ × ℚ :=
  match measure with
  | none => (minWidth, minHeight)
  | some m =>
    let width := max (m nm + nodePadding * 2) minWidth
    let height := max (fontSize + nodePadding * 2) minHeight
    if depth = 0 then (width * (3/2), height * (6/5)) else (width, height)

/-- `getTextSize` (src/components/MindFlow.tsx lines 61–70): measure via the
canvas context when available, otherwise estimate the width from the
character count. -/
def getTextSize (measure : Option (String → ℚ)) (text : String) (fontSize : ℚ) : ℚ × ℚ :=
  match measure with
  | some m => (m text, fontSize)
  | none => ((text.length : ℚ) * fontSize * (3/5), fontSize)

/-! ## Layout Engine, bottom-up extents (svg variant, part_000 lines 89–129)

`getVerticalSpacing` uses `Math.log`, abstracted as the parameter `log`.
`calculateMinHeight` is the bottom-up extent pass; it runs on the filtered
hierarchy, so its `children` are the visible children. -/

def getVerticalSpacing (log : ℚ → ℚ) (fontSize : ℚ) (depth nodesCount : ℕ) : ℚ :=
  let minSpacing := max 50 (fontSize * 2)
  let depthFactor := max (4/5) (1 - (depth : ℚ) * (1/10))
  let countFactor := max 1 (1 + log (nodesCount : ℚ) * (3/10))
  minSpacing * depthFactor * countFactor

mutual
def calculateMinHeight (sp : ℕ → ℕ → ℚ) (fontSize nodePadding : ℚ) :
    ℕ → MNode → ℚ
  | _, MNode.node nm [] => (nodeSizeSvg fontSize nodePadding (MNode.node nm [])).2
  | d, MNode.node nm (c :: cs) =>
    let height := (nodeSizeSvg fontSize nodePadding (MNode.node nm (c :: cs))).2
    let totalChildrenHeight := minHeightSum sp fontSize nodePadding (d + 1) (c :: cs)
    let totalSpacing := (((c :: cs).length : ℚ) - 1) * sp d (c :: cs).length
    max height (totalChildrenHeight + totalSpacing)

def minHeightSum (sp : ℕ → ℕ → ℚ) (fontSize nodePadding : ℚ) :
    ℕ → List MNode → ℚ
  | _, [] => 0
  | d, c :: cs =>
    calculateMinHeight sp fontSize nodePadding d c + minHeightSum sp fontSize nodePadding d cs
end

/-! The spec's own formula for the extent, stated on the *unfiltered* tree
with the expanded set explicit: `extent(node) = max(own_size,
sum(extent(child) for visible children) + (num_children−1) * sibling_gap)`,
where a collapsed subtree is an opaque leaf of its own size. -/

mutual
def extentSpec (sp : ℕ → ℕ → ℚ) (fontSize nodePadding : ℚ) (s : Finset String) :
    ℕ → MNode → ℚ
  | d, MNode.node nm cs =>
    if nm ∈ s ∧ ¬ cs.isEmpty then
      max (nodeSizeSvg fontSize nodePadding (MNode.node nm cs)).2
        (extentSpecSum sp fontSize nodePadding s (d + 1) cs + ((cs.length : ℚ) - 1) * sp d cs.length)
    else (nodeSizeSvg fontSize nodePadding (MNode.node nm cs)).2

def extentSpecSum (sp : ℕ → ℕ → ℚ) (fontSize nodePadding : ℚ) (s : Finset String) :
    ℕ → List MNode → ℚ
  | _, [] => 0
  | d, c :: cs =>
    extentSpec sp fontSize nodePadding s d c + extentSpecSum sp fontSize nodePadding s d cs
end

/-! ## Interaction Controller: transform, pan and zoom -/

/-- The affine transform (canvas variant, lines 16–20 / 659–663):
`screen = content * scale + translate`. -/
structure Transform where
  x : ℚ
  y : ℚ
  scale : ℚ
deriving DecidableEq, Repr

/-- `handleWheel` (canvas variant, lines 1526–1552) with the computed
`delta` (source: `-event.deltaY * 0.001`) as argument: clamp the new scale
to the zoom range and re-anchor the translation at the focal point. -/
def handleWheel (zoomRange : ℚ × ℚ) (fx fy delta : ℚ) (tr : Transform) : Transform :=
  let newScale := min (max (tr.scale * (1 + delta)) zoomRange.1) zoomRange.2
  let scaleRatio := newScale / tr.scale
  { scale := newScale
    x := fx - (fx - tr.x) * scaleRatio
    y := fy - (fy - tr.y) * scaleRatio }

/-- Content-space point under a canvas-space point (`findHoveredNode`,
lines 1272–1274): the inverse transform. -/
def contentPt (tr : Transform) (cx cy : ℚ) : ℚ × ℚ :=
  ((cx - tr.x) / tr.scale, (cy - tr.y) / tr.scale)

/-- Screen position of a content-space point (`drawNode`, lines 1112–1113). -/
def screenPt (tr : Transform) (p : ℚ × ℚ) : ℚ × ℚ :=
  (p.1 * tr.scale + tr.x, p.2 * tr.scale + tr.y)

/-! ## Hit testing (`findHoveredNode`, canvas variant, lines 1261–1350) -/

/-- One recorded entry of `nodesMetricsRef`: size and content-space center
of a drawn node (`drawNode`, lines 1102–1109). -/
structure NodeMetrics where
  width : ℚ
  height : ℚ
  x : ℚ
  y : ℚ
deriving DecidableEq, Repr

/-- Point-in-box test of `findHoveredNode` (lines 1298–1313): bounds are
inclusive. -/
def inBox (p : ℚ × ℚ) (m : NodeMetrics) : Bool :=
  decide (m.x - m.width / 2 ≤ p.1) && decide (p.1 ≤ m.x + m.width / 2) &&
  decide (m.y - m.height / 2 ≤ p.2) && decide (p.2 ≤ m.y + m.height / 2)

/-- Squared distance from the point to a box center.  The source compares
`Math.sqrt` distances (lines 1315–1318); `Real.sqrt` is strictly monotone on
nonnegative reals, so comparing squared distances selects the same node. -/
def dist2 (p : ℚ × ℚ) (m : NodeMetrics) : ℚ :=
  (p.1 - m.x) ^ 2 + (p.2 - m.y) ^ 2

/-- One iteration of the `findHoveredNode` loop: accept a containing box
that is strictly closer than the best so far, but only when the name is
found among the hierarchy's descendants (lines 1310–1337). -/
def hitStep (names : List String) (p : ℚ × ℚ) (acc : Option String × Option ℚ)
    (e : String × NodeMetrics) : Option String × Option ℚ :=
  if inBox p e.2 then
    let d := dist2 p e.2
    if (match acc.2 with | none => true | some m => decide (d < m)) then
      if e.1 ∈ names then (some e.1, some d) else acc
    else acc
  else acc

/-- `findHoveredNode`: inverse-transform the pointer into content space and
scan the recorded metrics entries (in insertion order) for the closest
containing box whose name occurs in the processed tree. -/
def findHoveredNode (t : MNode) (tr : Transform) (entries : List (String × NodeMetrics))
    (cx cy : ℚ) : Option String :=
  (entries.foldl (hitStep (namesOf t) (contentPt tr cx cy)) (none, none)).1

/-! ## Layout Engine, coordinate assignment (svg variant, part_000 lines 131–316)

The source mutates `node.x` / `node.y` fields of the d3 hierarchy objects.
We model that mutable state explicitly as a map from tree positions (index
paths) to coordinates; `node.y || 0` reads become `readY` with default `0`
(`undefined || 0` and `0 || 0` are both `0`).  `Math.sin`/`Math.cos`/
`Math.PI` are the abstract `TrigFns`.  `layoutNode`'s `siblingIndex` and
`totalSiblings` parameters are never read in its body and are omitted; its
`node === root` branch is dead (the driver only ever calls it on children
of the root) and is omitted too.  Note that the body reads the parent's
`y` and its own `y` *before* they are assigned for the current pass (the
assignment happens after the children loop), so the computed positions do
depend on this position state. -/

abbrev PosSt := List ℕ → Option (ℚ × ℚ)

def readY (σ : PosSt) (p : List ℕ) : ℚ :=
  match σ p with
  | some xy => xy.2
  | none => 0

def writePos (σ : PosSt) (p : List ℕ) (xy : ℚ × ℚ) : PosSt :=
  fun q => if q = p then some xy else σ q

structure LayoutRes where
  height : ℚ
  totalHeight : ℚ
  width : ℚ

structure TrigFns where
  sin : ℚ → ℚ
  cos : ℚ → ℚ
  pi : ℚ

def childHeightSum (fontSize nodePadding : ℚ) : List MNode → ℚ
  | [] => 0
  | c :: cs => (nodeSizeSvg fontSize nodePadding c).2 + childHeightSum fontSize nodePadding cs

mutual
def layoutNode (tg : TrigFns) (fontSize nodePadding : ℚ) (σ : PosSt)
    (path parentPath : List ℕ) (n : MNode) (top : ℚ) (level : ℕ) (isLeft : Bool) :
    PosSt × LayoutRes :=
  match n with
  | MNode.node nm cs =>
    let sz := nodeSizeSvg fontSize nodePadding (MNode.node nm cs)
    let xy : ℚ × ℚ :=
      if level = 1 then (top, if isLeft then -(150 * (5/2)) else 150 * (5/2))
      else
        let levelFactor := max (3/5) (1 - ((level : ℚ) - 2) * (1/10))
        let angle := if isLeft then tg.pi + tg.pi / 6 * levelFactor
                     else 0 - tg.pi / 6 * levelFactor
        let distance := 150 * (19/20 : ℚ) ^ (level - 2)
        let deltaY := tg.cos angle * distance
        (top, readY σ parentPath + (if isLeft then -|deltaY| else |deltaY|))
    if cs.isEmpty then (writePos σ path xy, ⟨sz.2, sz.2, sz.1⟩)
    else
      let childrenBlockHeight :=
        childHeightSum fontSize nodePadding cs + ((cs.length : ℚ) - 1) * 120
      let r := layoutChildren tg fontSize nodePadding σ path cs 0
        (xy.1 - childrenBlockHeight / 2) (level + 1) 0 0
      (writePos r.1 path xy,
       ⟨max sz.2 childrenBlockHeight, max sz.2 r.2.1, sz.1 + r.2.2 + 150⟩)

def layoutChildren (tg : TrigFns) (fontSize nodePadding : ℚ) (σ : PosSt)
    (ppath : List ℕ) (cs : List MNode) (i : ℕ) (currentTop : ℚ) (childLevel : ℕ)
    (totalHeight maxChildWidth : ℚ) : PosSt × ℚ × ℚ :=
  match cs with
  | [] => (σ, totalHeight, maxChildWidth)
  | c :: rest =>
    let childHeight := (nodeSizeSvg fontSize nodePadding c).2
    let childIsLeft := decide (readY σ ppath < 0)
    let r := layoutNode tg fontSize nodePadding σ (ppath ++ [i]) ppath c
      (currentTop + childHeight / 2) childLevel childIsLeft
    layoutChildren tg fontSize nodePadding r.1 ppath rest (i + 1)
      (currentTop + childHeight + 120) childLevel
      (max totalHeight r.2.totalHeight) (max maxChildWidth r.2.width)
end

/-- Weight of a root child for the left/right partition (lines 244–257):
label length plus twice the number of descendants (self included). -/
def rootChildWeight (n : MNode) : ℕ := n.name.length + (descendants n).length * 2

/-- The partition loop: first index at which the running weight reaches
half the total (`currentWeight >= totalWeight / 2`, i.e.
`2 * currentWeight ≥ totalWeight`); `midIndex` stays `0` if the loop never
breaks (only possible for an empty list). -/
def midIndexAux : List MNode → ℕ → ℕ → ℕ → ℕ
  | [], _, _, _ => 0
  | c :: cs, i, cur, total =>
    let cur' := cur + rootChildWeight c
    if total ≤ 2 * cur' then i else midIndexAux cs (i + 1) cur' total

def midIndex (cs : List MNode) : ℕ :=
  midIndexAux cs 0 0 (cs.foldl (fun acc c => acc + rootChildWeight c) 0)

/-- One side of the driver loop (lines 273–295): place each top-level node
at the running `currentTop`, then advance it by the returned subtree total
height, the level-1 spacing and the extra half spacing for non-last nodes. -/
def layoutSide (tg : TrigFns) (log : ℚ → ℚ) (fontSize nodePadding : ℚ) (σ : PosSt)
    (isLeft : Bool) (count : ℕ) : List (ℕ × MNode) → ℚ → PosSt
  | [], _ => σ
  | (idx, n) :: rest, currentTop =>
    let spacing := getVerticalSpacing log fontSize 1 count
    let r := layoutNode tg fontSize nodePadding σ [idx] [] n currentTop 1 isLeft
    let extra := if rest.isEmpty then 0 else spacing * (1/2)
    layoutSide tg log fontSize nodePadding r.1 isLeft count rest
      (currentTop + r.2.totalHeight + spacing + extra)

/-- `calculateLayout` (svg variant, lines 89–317), positions only (the
`setDimensions` side effect does not touch coordinates): partition the
root's children by weight, lay out the left then the right side, then place
the root at `(totalHeight / 2, 0)`. -/
def calculateLayoutSvg (tg : TrigFns) (log : ℚ → ℚ) (fontSize nodePadding : ℚ)
    (σ : PosSt) (t : MNode) : PosSt :=
  match t with
  | MNode.node _ cs =>
    let mid := midIndex cs
    let leftNodes := cs.take (mid + 1)
    let rightNodes := cs.drop (mid + 1)
    let sp := getVerticalSpacing log fontSize
    let leftTotalHeight := minHeightSum (sp) fontSize nodePadding 1 leftNodes +
      ((leftNodes.length : ℚ) - 1) * sp 1 leftNodes.length * (3/2)
    let rightTotalHeight := minHeightSum (sp) fontSize nodePadding 1 rightNodes +
      ((rightNodes.length : ℚ) - 1) * sp 1 rightNodes.length * (3/2)
    let σ₁ := layoutSide tg log fontSize nodePadding σ true leftNodes.length
      (cs.enum.take (mid + 1)) 0
    let σ₂ := layoutSide tg log fontSize nodePadding σ₁ false rightNodes.length
      (cs.enum.drop (mid + 1)) 0
    writePos σ₂ [] (max leftTotalHeight rightTotalHeight / 2, 0)

/-- All coordinates unset — the state of a freshly constructed hierarchy
(`d3.hierarchy(...)`/`root.copy()`/`createHierarchy(...)` produce nodes
with no `x`/`y`). -/
def freshPos : PosSt := fun _ => none

/-- One layout pass as the renderer executes it (svg variant `useMemo`,
lines 395–414; canvas variant `render`, lines 1227–1228): a *fresh*
hierarchy is constructed from the data and the expanded set — discarding
whatever coordinates (`_prior`) the previous pass left behind — filtered,
and laid out. -/
def renderPositions (tg : TrigFns) (log : ℚ → ℚ) (fontSize nodePadding : ℚ)
    (data : MNode) (s : Finset String) (_prior : PosSt) : PosSt :=
  calculateLayoutSvg tg log fontSize nodePadding freshPos (filterExpanded s data)

/-! ## Scene Renderer bookkeeping (canvas variant, lines 1180–1250)

`render` walks `layoutedRoot.descendants()` and calls `drawNode` on each,
which upserts that node's metrics into `nodesMetricsRef` (a `Map` keyed by
name, lines 1102–1109).  `render` never clears the map.  The metric values
recorded for each name are abstracted as `metricsOf` (the claim about this
lookup concerns its key set). -/

def mapSet (m : List (String × NodeMetrics)) (k : String) (v : NodeMetrics) :
    List (String × NodeMetrics) :=
  if m.any (fun e => e.1 = k) then m.map (fun e => if e.1 = k then (k, v) else e)
  else m ++ [(k, v)]

/-- Names of the nodes visible (rendered) for data `t` and expanded set `s`. -/
def visibleNames (t : MNode) (s : Finset String) : List String :=
  namesOf (filterExpanded s t)

/-- The metrics bookkeeping of one paint pass. -/
def paintPass (metricsOf : String → NodeMetrics) (t : MNode) (s : Finset String)
    (m : List (String × NodeMetrics)) : List (String × NodeMetrics) :=
  (visibleNames t s).foldl (fun acc nm => mapSet acc nm (metricsOf nm)) m

/-! ## Concrete instances used by the counterexamples -/

def eNode : MNode := MNode.node "e" []
def dNode : MNode := MNode.node "d" [eNode]
def cNode : MNode := MNode.node "c" [dNode]
def bNode : MNode := MNode.node "b" [cNode]
def aNode : MNode := MNode.node "a" [bNode]
def chainT : MNode := MNode.node "r" [aNode]

/-- Click sequence on `chainT`, every click on a then-visible node with
children: expand `b`, expand `c`, expand `d`, then collapse `b`. -/
def expSet1 : Finset String :=
  handleNodeToggle bNode (ancestorsAt chainT [0, 0]) 2 (initialExpanded chainT)
def expSet2 : Finset String :=
  handleNodeToggle cNode (ancestorsAt chainT [0, 0, 0]) 3 expSet1
def expSet3 : Finset String :=
  handleNodeToggle dNode (ancestorsAt chainT [0, 0, 0, 0]) 4 expSet2
def badSet : Finset String :=
  handleNodeToggle bNode (ancestorsAt chainT [0, 0]) 2 expSet3

/-- `badSet` is reachable: every toggle in the sequence clicks a node that
is visible (rendered) in the state it is applied to. -/
theorem badSet_reachable : Reachable chainT badSet := by
  have h0 : Reachable chainT (initialExpanded chainT) := Reachable.init
  have h1 : Reachable chainT expSet1 :=
    Reachable.toggle (initialExpanded chainT) [0, 0] bNode rfl h0
  have h2 : Reachable chainT expSet2 :=
    Reachable.toggle expSet1 [0, 0, 0] cNode rfl h1
  have h3 : Reachable chainT expSet3 :=
    Reachable.toggle expSet2 [0, 0, 0, 0] dNode rfl h2
  exact Reachable.toggle expSet3 [0, 0] bNode rfl h3

/-- C1: the claim says a collapse toggle on a node removes the node's
identity and the identities of *all* of its descendants from the
ExpandedSet.  Evaluating the code at the failing input refutes this: in
state `expSet3 = {r,a,b,c,d}` a collapse toggle on `b` (which is in the
set and has children) produces `badSet = {r,a,d}` — the grandchild `d` of
`b` is a strict descendant of `b` yet keeps its identity in the set,
because `collapseDescendants` deletes only the node and its immediate
children and never recurses. -/
theorem collapse_keeps_grandchild_expanded :
    "b" ∈ expSet3 ∧ ¬ bNode.children.isEmpty ∧
    "d" ∈ namesOf bNode ∧ "d" ≠ "b" ∧ "d" ∈ expSet3 ∧
    handleNodeToggle bNode (ancestorsAt chainT [0, 0]) 2 expSet3 = badSet ∧
    "d" ∈ badSet :=
  ⟨by decide, by decide, by decide, by decide, by decide, rfl, by decide⟩

/-- C2: the claim says every reachable ExpandedSet is ancestor-closed.
Evaluating the code at the failing input refutes this: the reachable state
`badSet = {r,a,d}` contains the identity of the node `d` (at path
`[0,0,0,0]` of `chainT`) while the identity `c` of one of `d`'s ancestors
is not in the set. -/
theorem ancestor_invariant_violated_reachably :
    Reachable chainT badSet ∧ "d" ∈ badSet ∧
    (findAt chainT [0, 0, 0, 0]).map MNode.name = some "d" ∧
    "c" ∈ (ancestorsAt chainT [0, 0, 0, 0]).map MNode.name ∧
    "c" ∉ badSet :=
  ⟨badSet_reachable, by decide, rfl, by decide, by decide⟩

/-- C3: the claim says for *every* node of the tree, its children appear in
the visible laid-out tree iff its identity is in the ExpandedSet and it has
a child.  Evaluating the code at the failing input refutes this: in the
reachable state `badSet`, node `d` has its identity in the set and has a
child, yet `d` is hidden (its ancestors `b`, `c` are collapsed), so no node
named `d` appears in the rendered tree with children. -/
theorem children_iff_fails_for_hidden_expanded_node :
    Reachable chainT badSet ∧ "d" ∈ badSet ∧
    findAt chainT [0, 0, 0, 0] = some dNode ∧ ¬ dNode.children.isEmpty ∧
    childrenAppear chainT badSet "d" = false :=
  ⟨badSet_reachable, by decide, rfl, by decide, by decide⟩

/-! Concrete instance for the stale-metrics claim: tree `r → a → b`,
initially `{r, a}` expanded (so `r`, `a`, `b` are all painted), then a
collapse click on `a`. -/

def t8 : MNode := MNode.node "r" [MNode.node "a" [MNode.node "b" []]]

def t8SetBefore : Finset String := initialExpanded t8

def t8SetAfter : Finset String :=
  handleNodeToggle (MNode.node "a" [MNode.node "b" []]) (ancestorsAt t8 [0]) 1 t8SetBefore

/-- C8: the claim says the bounding-box lookup holds an entry exactly for
each node visible in the current paint and never retains stale entries.
Evaluating the code at the failing input refutes this: `render` never
clears `nodesMetricsRef`, so after painting `{r,a,b}` and then repainting
after the collapse of `a` (visible nodes `{r,a}`), the entry for the
no-longer-visible node `b` is still in the lookup. -/
theorem stale_metrics_after_collapse :
    Reachable t8 t8SetAfter ∧
    "b" ∈ (paintPass (fun _ => ⟨0, 0, 0, 0⟩) t8 t8SetAfter
        (paintPass (fun _ => ⟨0, 0, 0, 0⟩) t8 t8SetBefore [])).map Prod.fst ∧
    "b" ∈ visibleNames t8 t8SetBefore ∧
    "b" ∉ visibleNames t8 t8SetAfter := by
  refine ⟨?_, by decide, by decide, by decide⟩
  exact Reachable.toggle t8SetBefore [0] (MNode.node "a" [MNode.node "b" []]) rfl
    Reachable.init

/-- A 30-character label. -/
def longLabel : String := "aaaaaaaaaaaaaaaaaaaaaaaaaaaaaa"

/-- C9 counterexample: with the drawing context unavailable, the canvas
variant's `calculateNodeSize` (default theme: fontSize 14, minWidth 80,
minHeight 32, nodePadding 30) returns the configured minimum size for a
1-character and a 30-character label alike — a width independent of the
character count, and different from the character-count heuristic
`length * fontSize * 0.6` (= 252 here) that `getTextSize` uses. -/
theorem canvas_fallback_ignores_charcount :
    calculateNodeSizeCanvas none 14 80 32 30 "a" 1 = (80, 32) ∧
    calculateNodeSizeCanvas none 14 80 32 30 longLabel 1 = (80, 32) ∧
    (getTextSize none longLabel 14).1 = 252 ∧ (252 : ℚ) ≠ 80 := by
  have hlen : longLabel.length = 30 := by decide
  refine ⟨rfl, rfl, ?_, by norm_num⟩
  show (longLabel.length : ℚ) * 14 * (3 / 5) = 252
  rw [hlen]; norm_num

/-- C9 (amended): size measurement never fails when the drawing context is
unavailable: `getTextSize` falls back to the character-count heuristic
`length * fontSize * 0.6`, while the canvas variant's `calculateNodeSize`
falls back to the configured minimum width and height, independent of the
label. -/
theorem measurement_fallback_total (text nm : String) (fontSize mw mh pad : ℚ) (d : ℕ) :
    getTextSize none text fontSize = ((text.length : ℚ) * fontSize * (3/5), fontSize) ∧
    calculateNodeSizeCanvas none fontSize mw mh pad nm d = (mw, mh) :=
  ⟨rfl, rfl⟩

theorem mem_foldl_insert (l : List MNode) (s : Finset String) (x : String) :
    x ∈ l.foldl (fun acc c => insert c.name acc) s ↔ x ∈ s ∨ x ∈ l.map MNode.name := by
  induction l generalizing s with
  | nil => simp
  | cons c cs ih => simp [ih, Finset.mem_insert]; tauto

/-- C10: an expand toggle on the root (depth 0, identity not yet in the
set, with children) inserts the root's identity and the identity of every
immediate child of the root into the ExpandedSet. -/
theorem root_expand_adds_children (n : MNode) (s : Finset String)
    (hch : ¬ n.children.isEmpty) (hnot : n.name ∉ s) :
    n.name ∈ handleNodeToggle n [] 0 s ∧
    ∀ c ∈ n.children, c.name ∈ handleNodeToggle n [] 0 s := by
  have hch' : n.children.isEmpty = false := by simpa using hch
  have hgoal : handleNodeToggle n [] 0 s =
      n.children.foldl (fun acc c => insert c.name acc) (insert n.name s) := by
    unfold handleNodeToggle
    simp [hch', hnot]
  rw [hgoal]
  constructor
  · rw [mem_foldl_insert]
    exact Or.inl (Finset.mem_insert_self _ _)
  · intro c hc
    rw [mem_foldl_insert]
    exact Or.inr (List.mem_map_of_mem MNode.name hc)

def wRoot : MNode := MNode.node "r" [MNode.node "x" [], MNode.node "y" []]

/-- C10 witness: the theorem applied to the concrete root `wRoot` and the
empty set. -/
theorem root_expand_adds_children_witness :
    (¬ wRoot.children.isEmpty) ∧ "r" ∉ (∅ : Finset String) ∧
    "r" ∈ handleNodeToggle wRoot [] 0 ∅ ∧
    "x" ∈ handleNodeToggle wRoot [] 0 ∅ ∧
    "y" ∈ handleNodeToggle wRoot [] 0 ∅ := by
  have h := root_expand_adds_children wRoot ∅ (by decide) (by decide)
  exact ⟨by decide, by decide, h.1,
    h.2 (MNode.node "x" []) (List.Mem.head _),
    h.2 (MNode.node "y" []) (List.Mem.tail _ (List.Mem.head _))⟩

/-- C6: re-running the layout on identical inputs (tree data and
ExpandedSet) yields identical positions for every node: one pass, as the
renderer executes it, is an idempotent transformer of the mutable
coordinate state, because each pass lays out a freshly constructed
hierarchy (all coordinates unset) built only from the data and the
expanded set. -/
theorem renderPositions_idempotent (tg : TrigFns) (log : ℚ → ℚ)
    (fontSize nodePadding : ℚ) (data : MNode) (s : Finset String) (σ : PosSt) :
    renderPositions tg log fontSize nodePadding data s
      (renderPositions tg log fontSize nodePadding data s σ) =
    renderPositions tg log fontSize nodePadding data s σ := rfl

/-- If a content point sits at the focal screen position, it still sits
there after a `handleWheel` step anchored at that focal position. -/
theorem handleWheel_fixes_focal (zr : ℚ × ℚ) (fx fy δ : ℚ) (tr : Transform)
    (c : ℚ × ℚ) (hs : tr.scale ≠ 0) (hc : screenPt tr c = (fx, fy)) :
    screenPt (handleWheel zr fx fy δ tr) c = (fx, fy) := by
  have hc1 : c.1 * tr.scale + tr.x = fx := congrArg Prod.fst hc
  have hc2 : c.2 * tr.scale + tr.y = fy := congrArg Prod.snd hc
  simp only [screenPt, handleWheel, Prod.mk.injEq]
  constructor
  · rw [← hc1]
    field_simp
    ring
  · rw [← hc2]
    field_simp
    ring

theorem screenPt_contentPt (tr : Transform) (fx fy : ℚ) (hs : tr.scale ≠ 0) :
    screenPt tr (contentPt tr fx fy) = (fx, fy) := by
  simp [screenPt, contentPt, div_mul_cancel₀ _ hs]

/-- C4 (amended): zooming with equal and opposite deltas `+d` then `-d` at
the same focal point multiplies the scale by `(1+d)(1−d) = 1−d²` (for
`d = 0.1` a 1% shrink, not a return to the original scale), provided
neither step hits the zoom-range clamp; the anchor half of the claim does
hold — the content point that was at the focal screen position is still at
the focal screen position after each of the two zoom steps. -/
theorem zoom_updown_amended (zr : ℚ × ℚ) (tr : Transform) (fx fy d : ℚ)
    (hs : tr.scale ≠ 0) (hzr : 0 < zr.1)
    (h1 : zr.1 ≤ tr.scale * (1 + d)) (h2 : tr.scale * (1 + d) ≤ zr.2)
    (h3 : zr.1 ≤ tr.scale * (1 + d) * (1 - d)) (h4 : tr.scale * (1 + d) * (1 - d) ≤ zr.2) :
    (handleWheel zr fx fy (-d) (handleWheel zr fx fy d tr)).scale
      = tr.scale * (1 - d ^ 2) ∧
    screenPt (handleWheel zr fx fy d tr) (contentPt tr fx fy) = (fx, fy) ∧
    screenPt (handleWheel zr fx fy (-d) (handleWheel zr fx fy d tr))
      (contentPt tr fx fy) = (fx, fy) := by
  have e1 : (handleWheel zr fx fy d tr).scale = tr.scale * (1 + d) := by
    show min (max (tr.scale * (1 + d)) zr.1) zr.2 = tr.scale * (1 + d)
    rw [max_eq_left h1, min_eq_left h2]
  have hns1 : (handleWheel zr fx fy d tr).scale ≠ 0 := by
    rw [e1]
    exact ne_of_gt (lt_of_lt_of_le hzr h1)
  have e2 : (handleWheel zr fx fy (-d) (handleWheel zr fx fy d tr)).scale
      = tr.scale * (1 + d) * (1 - d) := by
    show min (max ((handleWheel zr fx fy d tr).scale * (1 + -d)) zr.1) zr.2 = _
    rw [e1]
    have harith : tr.scale * (1 + d) * (1 + -d) = tr.scale * (1 + d) * (1 - d) := by ring
    rw [harith, max_eq_left h3, min_eq_left h4]
  have anchor1 : screenPt (handleWheel zr fx fy d tr) (contentPt tr fx fy) = (fx, fy) :=
    handleWheel_fixes_focal zr fx fy d tr _ hs (screenPt_contentPt tr fx fy hs)
  refine ⟨by rw [e2]; ring, anchor1, ?_⟩
  exact handleWheel_fixes_focal zr fx fy (-d) _ _ hns1 anchor1

/-- C4 witness: the amended theorem at the claim's concrete scenario —
initial transform `(0, 0, scale 1)`, zoom range `[0.1, 3]`, focal point
`(100, 100)`, deltas `+0.1` then `−0.1`. -/
theorem zoom_updown_amended_witness :
    (handleWheel ((1 : ℚ)/10, 3) 100 100 (-(1/10))
        (handleWheel ((1 : ℚ)/10, 3) 100 100 (1/10) ⟨0, 0, 1⟩)).scale
      = (1 : ℚ) * (1 - (1/10) ^ 2) ∧
    screenPt (handleWheel ((1 : ℚ)/10, 3) 100 100 (1/10) ⟨0, 0, 1⟩)
      (contentPt ⟨0, 0, 1⟩ 100 100) = (100, 100) ∧
    screenPt (handleWheel ((1 : ℚ)/10, 3) 100 100 (-(1/10))
        (handleWheel ((1 : ℚ)/10, 3) 100 100 (1/10) ⟨0, 0, 1⟩))
      (contentPt ⟨0, 0, 1⟩ 100 100) = (100, 100) := by
  have h := zoom_updown_amended ((1 : ℚ)/10, 3) ⟨0, 0, 1⟩ 100 100 (1/10)
    (by norm_num) (by norm_num) (by norm_num) (by norm_num) (by norm_num) (by norm_num)
  simpa using h

/-- C4 counterexample: at the claim's own scenario (scale 1, strictly
inside the default zoom range `[0.1, 3]`), the +0.1 / −0.1 zoom pair lands
on scale `0.99`, which is not the original scale within any floating-point
tolerance (the error is `0.01`). -/
theorem zoom_updown_counterexample :
    (1 : ℚ)/10 < (Transform.mk 0 0 1).scale ∧ (Transform.mk 0 0 1).scale < 3 ∧
    (handleWheel ((1 : ℚ)/10, 3) 100 100 (-(1/10))
        (handleWheel ((1 : ℚ)/10, 3) 100 100 (1/10) ⟨0, 0, 1⟩)).scale = 99/100 ∧
    |(99/100 : ℚ) - (Transform.mk 0 0 1).scale| > 1/1000000 := by
  have habs : |(99/100 : ℚ) - (Transform.mk 0 0 1).scale| = 1/100 := by
    show |(99/100 : ℚ) - 1| = 1/100
    rw [abs_of_nonpos (by norm_num)]
    norm_num
  refine ⟨by norm_num, by norm_num, ?_, by rw [habs]; norm_num⟩
  norm_num [handleWheel]

@[simp] theorem nodeSizeSvg_snd (fontSize nodePadding : ℚ) (n : MNode) :
    (nodeSizeSvg fontSize nodePadding n).2 = max (fontSize + nodePadding) 28 := rfl

theorem filterChildren_length (s : Finset String) :
    ∀ cs : List MNode, (filterChildren s cs).length = cs.length := by
  intro cs
  induction cs with
  | nil => rfl
  | cons c cs ih => simp [filterChildren, ih]

theorem minHeightSum_filter (sp : ℕ → ℕ → ℚ) (fontSize nodePadding : ℚ)
    (s : Finset String) (cs : List MNode)
    (ih : ∀ c ∈ cs, ∀ d, calculateMinHeight sp fontSize nodePadding d (filterExpanded s c)
        = extentSpec sp fontSize nodePadding s d c) :
    ∀ d, minHeightSum sp fontSize nodePadding d (filterChildren s cs)
        = extentSpecSum sp fontSize nodePadding s d cs := by
  induction cs with
  | nil => intro d; rfl
  | cons c cs' ihl =>
    intro d
    have h1 := ih c (List.mem_cons_self c cs') d
    have h2 := ihl (fun x hx d' => ih x (List.mem_cons_of_mem c hx) d') d
    simp only [filterChildren, minHeightSum, extentSpecSum, h1, h2]

/-- The generic form of the extent refinement lemma, for an arbitrary sibling-gap
function. -/
theorem calcMinHeight_filter_eq (sp : ℕ → ℕ → ℚ) (fontSize nodePadding : ℚ)
    (s : Finset String) (t : MNode) : ∀ d : ℕ,
    calculateMinHeight sp fontSize nodePadding d (filterExpanded s t)
      = extentSpec sp fontSize nodePadding s d t := by
  induction t using MNode.inductionOn with
  | h nm cs ih =>
    intro d
    by_cases hmem : nm ∈ s
    · cases cs with
      | nil =>
        have hfe : filterExpanded s (MNode.node nm []) = MNode.node nm [] := by
          rw [filterExpanded, if_pos hmem, filterChildren]
        rw [hfe, calculateMinHeight, extentSpec,
          if_neg (fun h => h.2 rfl : ¬ (nm ∈ s ∧ ¬ ([] : List MNode).isEmpty = true))]
      | cons c cs' =>
        have hfe : filterExpanded s (MNode.node nm (c :: cs'))
            = MNode.node nm (filterExpanded s c :: filterChildren s cs') := by
          rw [filterExpanded, if_pos hmem, filterChildren]
        have hsum : minHeightSum sp fontSize nodePadding (d + 1)
              (filterExpanded s c :: filterChildren s cs')
            = extentSpecSum sp fontSize nodePadding s (d + 1) (c :: cs') := by
          have h := minHeightSum_filter sp fontSize nodePadding s (c :: cs') ih (d + 1)
          rw [filterChildren] at h
          exact h
        have hlen : (filterExpanded s c :: filterChildren s cs').length
            = (c :: cs').length := by
          simp [filterChildren_length]
        rw [hfe, calculateMinHeight, extentSpec,
          if_pos (⟨hmem, by simp⟩ : nm ∈ s ∧ ¬ (c :: cs').isEmpty = true)]
        simp only [nodeSizeSvg_snd, hsum, hlen]
    · have hfe : filterExpanded s (MNode.node nm cs) = MNode.node nm [] := by
        rw [filterExpanded, if_neg hmem]
      rw [hfe, calculateMinHeight, extentSpec, if_neg (fun h => hmem h.1)]
      simp only [nodeSizeSvg_snd]

/-- C5: for every node of the visible (filtered) tree, the bottom-up
extent computed by `calculateMinHeight` — with the sibling gap given by
`getVerticalSpacing` — equals the spec's formula: the maximum of the
node's own size and the sum of its visible children's extents plus
`(num_children − 1) *` the node's sibling gap, collapsed subtrees counting
as leaves of their own size. -/
theorem calculateMinHeight_extent (log : ℚ → ℚ) (fontSize nodePadding : ℚ)
    (s : Finset String) (t : MNode) (d : ℕ) :
    calculateMinHeight (getVerticalSpacing log fontSize) fontSize nodePadding d
        (filterExpanded s t)
      = extentSpec (getVerticalSpacing log fontSize) fontSize nodePadding s d t :=
  calcMinHeight_filter_eq (getVerticalSpacing log fontSize) fontSize nodePadding s t d

/-- Once the scan's best candidate is a containing, strictly-closest,
in-tree entry, the rest of the scan leaves it in place. -/
theorem hitFold_stable (names : List String) (p : ℚ × ℚ) (i : String × NodeMetrics)
    (l : List (String × NodeMetrics))
    (hbest : ∀ j ∈ l, inBox p j.2 = true → j.1 ∈ names →
      j = i ∨ dist2 p i.2 < dist2 p j.2) :
    l.foldl (hitStep names p) (some i.1, some (dist2 p i.2))
      = (some i.1, some (dist2 p i.2)) := by
  induction l with
  | nil => rfl
  | cons e rest ih =>
    have hstep : hitStep names p (some i.1, some (dist2 p i.2)) e
        = (some i.1, some (dist2 p i.2)) := by
      by_cases hbox : inBox p e.2
      · by_cases hd : dist2 p e.2 < dist2 p i.2
        · by_cases hn : e.1 ∈ names
          · rcases hbest e (List.mem_cons_self e rest) hbox hn with he | hlt
            · rw [he] at hd
              exact absurd hd (lt_irrefl _)
            · exact absurd hd (not_lt.mpr (le_of_lt hlt))
          · simp [hitStep, hbox, hd, hn]
        · simp [hitStep, hbox, hd]
      · simp [hitStep, hbox]
    rw [List.foldl_cons, hstep]
    exact ih (fun j hj hb hn => hbest j (List.mem_cons_of_mem e hj) hb hn)

/-- The scan of `findHoveredNode` returns the containing, in-tree entry
whose box center is strictly nearest to the point, from any accumulator
that is still empty or strictly farther than that entry. -/
theorem hitFold_finds (names : List String) (p : ℚ × ℚ) (i : String × NodeMetrics) :
    ∀ (l : List (String × NodeMetrics)) (acc : Option String × Option ℚ),
    (acc = (none, none) ∨ ∃ nm dj, acc = (some nm, some dj) ∧ dist2 p i.2 < dj) →
    i ∈ l → inBox p i.2 = true → i.1 ∈ names →
    (∀ j ∈ l, inBox p j.2 = true → j.1 ∈ names →
      j = i ∨ dist2 p i.2 < dist2 p j.2) →
    l.foldl (hitStep names p) acc = (some i.1, some (dist2 p i.2)) := by
  intro l
  induction l with
  | nil =>
    intro acc _ hmem
    exact absurd hmem (List.not_mem_nil i)
  | cons e rest ih =>
    intro acc hacc hmem hbox hname hbest
    by_cases hei : e = i
    · subst hei
      have hstep : hitStep names p acc e = (some e.1, some (dist2 p e.2)) := by
        rcases hacc with h0 | ⟨nm, dj, heq, hlt⟩
        · subst h0
          simp [hitStep, hbox, hname]
        · subst heq
          simp [hitStep, hbox, hname, hlt]
      rw [List.foldl_cons, hstep]
      exact hitFold_stable names p e rest
        (fun j hj hb hn => hbest j (List.mem_cons_of_mem e hj) hb hn)
    · have hmem' : i ∈ rest := by
        rcases List.mem_cons.mp hmem with h | h
        · exact absurd h.symm hei
        · exact h
      have hacc' : hitStep names p acc e = (none, none) ∨
          ∃ nm dj, hitStep names p acc e = (some nm, some dj) ∧ dist2 p i.2 < dj := by
        by_cases hbox2 : inBox p e.2
        · rcases hacc with h0 | ⟨nm, dj, heq, hlt⟩
          · subst h0
            by_cases hn : e.1 ∈ names
            · rcases hbest e (List.mem_cons_self e rest) hbox2 hn with he | hlt2
              · exact absurd he hei
              · right
                exact ⟨e.1, dist2 p e.2, by simp [hitStep, hbox2, hn], hlt2⟩
            · left
              simp [hitStep, hbox2, hn]
          · subst heq
            by_cases hd : dist2 p e.2 < dj
            · by_cases hn : e.1 ∈ names
              · rcases hbest e (List.mem_cons_self e rest) hbox2 hn with he | hlt2
                · exact absurd he hei
                · right
                  exact ⟨e.1, dist2 p e.2, by simp [hitStep, hbox2, hd, hn], hlt2⟩
              · right
                exact ⟨nm, dj, by simp [hitStep, hbox2, hd, hn], hlt⟩
            · right
              exact ⟨nm, dj, by simp [hitStep, hbox2, hd], hlt⟩
        · rcases hacc with h0 | ⟨nm, dj, heq, hlt⟩
          · left
            rw [h0]
            simp [hitStep, hbox2]
          · right
            exact ⟨nm, dj, by rw [heq]; simp [hitStep, hbox2], hlt⟩
      rw [List.foldl_cons]
      exact ih (hitStep names p acc e) hacc' hmem' hbox hname
        (fun j hj hb hn => hbest j (List.mem_cons_of_mem e hj) hb hn)

/-- C7: if the inverse-transformed pointer lies inside the recorded box of
entry `i`, `i`'s name occurs in the processed tree, and `i`'s box center is
strictly nearest to the point among all containing recorded entries (in
particular if no other recorded box contains the point), then hit-testing
returns `i`'s node identity. -/
theorem findHoveredNode_hits (t : MNode) (tr : Transform)
    (entries : List (String × NodeMetrics)) (cx cy : ℚ) (i : String × NodeMetrics)
    (hmem : i ∈ entries) (hbox : inBox (contentPt tr cx cy) i.2 = true)
    (hname : i.1 ∈ namesOf t)
    (hbest : ∀ j ∈ entries, inBox (contentPt tr cx cy) j.2 = true →
      j.1 ∈ namesOf t →
      j = i ∨ dist2 (contentPt tr cx cy) i.2 < dist2 (contentPt tr cx cy) j.2) :
    findHoveredNode t tr entries cx cy = some i.1 := by
  unfold findHoveredNode
  rw [hitFold_finds (namesOf t) (contentPt tr cx cy) i entries (none, none)
    (Or.inl rfl) hmem hbox hname hbest]

def hitT : MNode := MNode.node "r" [MNode.node "a" [], MNode.node "b" []]

def hitEntries : List (String × NodeMetrics) :=
  [("a", ⟨10, 10, 0, 0⟩), ("b", ⟨10, 10, 6, 6⟩)]

/-- C7 witness: the theorem at a concrete input where the content point
(5, 5) lies inside both recorded boxes and the box of `b` (center (6, 6))
is strictly nearer than the box of `a` (center (0, 0)): hit-testing
returns `b`. -/
theorem findHoveredNode_hits_witness :
    (("b", (⟨10, 10, 6, 6⟩ : NodeMetrics)) ∈ hitEntries) ∧
    inBox (contentPt ⟨0, 0, 1⟩ 5 5) (⟨10, 10, 6, 6⟩ : NodeMetrics) = true ∧
    inBox (contentPt ⟨0, 0, 1⟩ 5 5) (⟨10, 10, 0, 0⟩ : NodeMetrics) = true ∧
    findHoveredNode hitT ⟨0, 0, 1⟩ hitEntries 5 5 = some "b" := by
  have hbox_b : inBox (contentPt ⟨0, 0, 1⟩ 5 5) (⟨10, 10, 6, 6⟩ : NodeMetrics) = true := by
    simp only [inBox, contentPt, Bool.and_eq_true, decide_eq_true_eq]
    norm_num
  have hbox_a : inBox (contentPt ⟨0, 0, 1⟩ 5 5) (⟨10, 10, 0, 0⟩ : NodeMetrics) = true := by
    simp only [inBox, contentPt, Bool.and_eq_true, decide_eq_true_eq]
    norm_num
  refine ⟨by simp [hitEntries], hbox_b, hbox_a, ?_⟩
  apply findHoveredNode_hits hitT ⟨0, 0, 1⟩ hitEntries 5 5 ("b", ⟨10, 10, 6, 6⟩)
    (by simp [hitEntries]) hbox_b (by decide)
  intro j hj hb hn
  have hj2 : j = ("a", (⟨10, 10, 0, 0⟩ : NodeMetrics)) ∨
      j = ("b", (⟨10, 10, 6, 6⟩ : NodeMetrics)) := by
    simpa [hitEntries] using hj
  rcases hj2 with hja | hjb
  · subst hja
    right
    show dist2 (contentPt ⟨0, 0, 1⟩ 5 5) (⟨10, 10, 6, 6⟩ : NodeMetrics)
        < dist2 (contentPt ⟨0, 0, 1⟩ 5 5) (⟨10, 10, 0, 0⟩ : NodeMetrics)
    simp only [dist2, contentPt]
    norm_num
  · subst hjb
    left
    rfl
